import Mathlib

/-!
Verification of the Generalized Lucas Cube perfect-code search repository.

The repository represents vertices as fixed-length bit strings; we embed them
as `List Bool` (most significant bit first, matching Python's
`format(i, '0{n}b')`).  All definitions below are direct translations of the
Python source in `src/core` (cube, verifier, coset utilities) and of the three
search engines in `src/ga_solver` and `src/strategies`; the engines' calls to
`random` are abstracted as explicit oracle parameters, and Python exceptions
are modelled with `Option`/`Except`.
-/

/-- The `n`-bit binary representation of `i`, most significant bit first:
Python's `format(i, f'0{n}b')` used by `GeneralizedLucasCube._generate_vertices`. -/
def natToBits : Nat → Nat → List Bool
  | 0, _ => []
  | k + 1, i => natToBits k (i / 2) ++ [decide (i % 2 = 1)]

/-- The numeric value of a bit string (inverse of `natToBits`). -/
def bitsToNat (l : List Bool) : Nat :=
  l.foldl (fun acc b => 2 * acc + (if b then 1 else 0)) 0

/-- `GeneralizedLucasCube._has_forbidden_substring`: checks whether `bits`
contains `pattern`, first linearly and then across the circular seam formed by
the last `s-1` characters followed by the first `s-1` characters. -/
def hasForbiddenSubstring (bits pattern : List Bool) : Bool :=
  let nLen := bits.length
  let sLen := pattern.length
  if nLen < sLen then false
  else if pattern <:+: bits then true
  else if 1 < sLen then
    decide (pattern <:+: (bits.drop (nLen - sLen + 1) ++ bits.take (sLen - 1)))
  else false

/-- `GeneralizedLucasCube._generate_vertices`: all `n`-bit strings avoiding the
forbidden pattern `'1' * s` (circularly). -/
def generateVertices (n s : Nat) : List (List Bool) :=
  ((List.range (2 ^ n)).map (natToBits n)).filter
    (fun bits => !hasForbiddenSubstring bits (List.replicate s true))

/-- `GeneralizedLucasCube.vertex_set`: the vertex list as a set. -/
def vertexSet (n s : Nat) : Finset (List Bool) :=
  (generateVertices n s).toFinset

/-- `GeneralizedLucasCube.__contains__`: membership in the vertex set. -/
def isMember (n s : Nat) (bits : List Bool) : Bool :=
  decide (bits ∈ vertexSet n s)

/-- `GeneralizedLucasCube.get_neighbors`: flip each of the `n` bit positions in
turn and keep the results that are again vertices of the cube. -/
def getNeighbors (n s : Nat) (bits : List Bool) : List (List Bool) :=
  (List.range n).filterMap (fun i =>
    let neighbor := bits.set i (!(bits.getD i false))
    if neighbor ∈ vertexSet n s then some neighbor else none)

/-- `GeneralizedLucasCube.get_closed_neighborhood`: empty for a non-member,
otherwise the vertex followed by its neighbors. -/
def getClosedNeighborhood (n s : Nat) (bits : List Bool) : List (List Bool) :=
  if bits ∈ vertexSet n s then bits :: getNeighbors n s bits else []

/-- The set `{codeword} | set(get_neighbors(codeword))` built by
`PerfectCodeSearcher.is_perfect_code` and by the GA fitness function. -/
def nbhd (n s : Nat) (v : List Bool) : Finset (List Bool) :=
  insert v (getNeighbors n s v).toFinset

/-- The union of the `nbhd` sets of the elements of a list of codewords. -/
def listUnion (n s : Nat) (C : List (List Bool)) : Finset (List Bool) :=
  C.foldr (fun c acc => nbhd n s c ∪ acc) ∅

/-- The codeword-by-codeword accumulation loop of
`PerfectCodeSearcher.is_perfect_code`: rejects a non-member codeword, rejects a
neighborhood that meets the already covered set, and finally compares the
covered set with the full vertex set. -/
def isPerfectCodeAux (n s : Nat) : Finset (List Bool) → List (List Bool) → Bool
  | covered, [] => decide (covered = vertexSet n s)
  | covered, c :: rest =>
    if c ∈ vertexSet n s then
      if covered ∩ nbhd n s c = ∅ then
        isPerfectCodeAux n s (covered ∪ nbhd n s c) rest
      else false
    else false

/-- `PerfectCodeSearcher.is_perfect_code`: false on the empty list, otherwise
the accumulation loop starting from an empty covered set. -/
def isPerfectCode (n s : Nat) (C : List (List Bool)) : Bool :=
  if C.isEmpty then false else isPerfectCodeAux n s ∅ C

/-- `PerfectCodeSearcher.get_theoretical_code_size`: `len(V) / (n + 1)` as an
exact rational. -/
def theoreticalCodeSize (n s : Nat) : ℚ :=
  ((vertexSet n s).card : ℚ) / ((n : ℚ) + 1)

/-- `_xor_bits` from `code_utils`: pointwise XOR over `zip` (which truncates to
the shorter argument). -/
def xorBits (a b : List Bool) : List Bool :=
  List.zipWith (fun x y => x != y) a b

/-- `get_hamming_distance` / the inline distance loops: number of positions at
which the zipped strings differ. -/
def getHammingDistance (a b : List Bool) : Nat :=
  (List.zipWith (fun x y => x != y) a b).count true

/-- `create_coset`: `[]` for an empty code, an error (`none`) when the shift
vector's length differs from the length of the first codeword, otherwise the
pointwise XOR of every codeword with the shift vector. -/
def createCoset (code : List (List Bool)) (v : List Bool) : Option (List (List Bool)) :=
  match code with
  | [] => some []
  | c0 :: _ =>
    if v.length = c0.length then some (code.map (fun cw => xorBits cw v)) else none

/-- `MemeticAlgorithmSearch._crossover`: Python draws
`point = random.randint(1, min(len(parent1), len(parent2)) - 1)`, which raises
`ValueError` (modelled as `none`) when the range is empty, and otherwise
returns `parent1[:point] + parent2[point:]`.  The random draw is modelled by
the seed `r`: `1 + r % (m - 1)` ranges over exactly the interval `[1, m-1]`. -/
def memeticCrossover (parent1 parent2 : List (List Bool)) (r : Nat) :
    Option (List (List Bool)) :=
  let m := min parent1.length parent2.length
  if m - 1 < 1 then none
  else
    let point := 1 + r % (m - 1)
    some (parent1.take point ++ parent2.drop point)

/-- The accumulation loop of `GeneticAlgorithmSearch._calculate_fitness`: walks
the code, incrementing `collisions` whenever a codeword's neighborhood meets
the coverage accumulated so far, and extending the coverage. -/
def gaFitnessAux (n s : Nat) :
    Finset (List Bool) → Nat → List (List Bool) → Finset (List Bool) × Nat
  | covered, collisions, [] => (covered, collisions)
  | covered, collisions, cw :: rest =>
    gaFitnessAux n s (covered ∪ nbhd n s cw)
      (if covered ∩ nbhd n s cw = ∅ then collisions else collisions + 1) rest

/-- `GeneticAlgorithmSearch._calculate_fitness`:
`len(covered) - collisions * (n + 1) * 10`. -/
def gaCalculateFitness (n s : Nat) (code : List (List Bool)) : Int :=
  let r := gaFitnessAux n s ∅ 0 code
  (r.1.card : Int) - (r.2 : Int) * ((n : Int) + 1) * 10

/-- The number of positions `j` of a code whose codeword's neighborhood meets
the union of the neighborhoods of the codewords at earlier positions (the
quantity the GA fitness loop actually counts). -/
def incrCollisions (n s : Nat) (C : List (List Bool)) : Nat :=
  (List.range C.length).countP
    (fun j => !(decide (Disjoint (listUnion n s (C.take j)) (nbhd n s (C.getD j [])))))

/-- The number of ordered positions `i < j` of a code whose codewords are at
Hamming distance less than 3 (the "unordered codeword pairs" of the claim). -/
def pairCollisions : List (List Bool) → Nat
  | [] => 0
  | c :: rest =>
    rest.countP (fun d => decide (getHammingDistance c d < 3)) + pairCollisions rest

/-- `MemeticAlgorithmSearch._calculate_fitness`: counts, over each codeword of
the list and each distinct member of the deduplicated code, the pairs at
Hamming distance `< 3`; coverage is the union of the neighborhoods; returns
`(fitness, uncovered, collisions // 2)`. -/
def memeticCalculateFitness (n s : Nat) (code : List (List Bool)) :
    Int × Nat × Nat :=
  let codeSet := code.dedup
  let collisions :=
    (code.map (fun cw =>
      (codeSet.filter (fun o => !(o == cw) && decide (getHammingDistance cw o < 3))).length)).sum
  let covered := listUnion n s code
  let uncovered := ((vertexSet n s) \ covered).card
  ((covered.card : Int) - ((uncovered * n : Nat) : Int)
      - ((collisions / 2 * n * 10 : Nat) : Int),
    uncovered, collisions / 2)

/-- Python string comparison `cw1 < cw2` on bit strings ('0' < '1',
shorter common-prefix string first). -/
def lexLt : List Bool → List Bool → Bool
  | [], [] => false
  | [], _ :: _ => true
  | _ :: _, [] => false
  | a :: as, b :: bs => (!a && b) || (a == b && lexLt as bs)

/-- The collision count of `SimulatedAnnealingSearch._calculate_energy`:
unordered pairs `cw1 < cw2` of the deduplicated code at distance `< 3`. -/
def saCollisions (code : List (List Bool)) : Nat :=
  let d := code.dedup
  (d.map (fun a =>
    (d.filter (fun b => lexLt a b && decide (getHammingDistance a b < 3))).length)).sum

/-- The coverage of `SimulatedAnnealingSearch._calculate_energy`: union of the
closed neighborhoods of the deduplicated code. -/
def saCovered (n s : Nat) (code : List (List Bool)) : Finset (List Bool) :=
  (code.dedup).foldr (fun c acc => (getClosedNeighborhood n s c).toFinset ∪ acc) ∅

/-- `SimulatedAnnealingSearch._calculate_energy`:
`(uncovered * n + collisions * collision_penalty, uncovered, collisions)`. -/
def saEnergy (n s : Nat) (penalty : Int) (code : List (List Bool)) :
    Int × Nat × Nat :=
  let collisions := saCollisions code
  let uncovered := ((vertexSet n s) \ saCovered n s code).card
  (((uncovered * n : Nat) : Int) + (collisions : Int) * penalty,
    uncovered, collisions)

/-- The loop state of `SimulatedAnnealingSearch.run`: current code and energy,
best-so-far code and energy, and the temperature (a float in Python, modelled
as an exact rational). -/
structure SAState where
  current : List (List Bool)
  curE : Int
  best : List (List Bool)
  bestE : Int
  temp : ℚ

/-- One iteration of the `SimulatedAnnealingSearch.run` loop body up to and
including the cooling step: propose a neighbor (oracle `neighborOf`), accept it
if its energy is strictly lower or if the Metropolis draw (oracle `accept`,
standing for `random.random() < exp((cur - nb) / temp)`) succeeds, update the
best-so-far on strict improvement, and multiply the temperature by the cooling
rate. -/
def saStep (n s : Nat) (penalty : Int) (rate : ℚ)
    (neighborOf : Nat → List (List Bool) → List (List Bool))
    (accept : Nat → Bool) (i : Nat) (st : SAState) : SAState :=
  let nb := neighborOf i st.current
  let nbE := (saEnergy n s penalty nb).1
  let acc := decide (nbE < st.curE) || accept i
  let cur := if acc then nb else st.current
  let curE := if acc then nbE else st.curE
  let best := if curE < st.bestE then cur else st.best
  let bestE := if curE < st.bestE then curE else st.bestE
  { current := cur, curE := curE, best := best, bestE := bestE,
    temp := st.temp * rate }

/-- The iteration loop of `SimulatedAnnealingSearch.run`: after each step, if
the best energy is zero and the verifier accepts the best code, return it;
otherwise continue until the iteration budget is exhausted (returning `none`).
Also returns the final state and the number of iterations executed. -/
def saRunAux (n s : Nat) (penalty : Int) (rate : ℚ)
    (neighborOf : Nat → List (List Bool) → List (List Bool))
    (accept : Nat → Bool) :
    Nat → Nat → SAState → Option (List (List Bool)) × SAState × Nat
  | 0, _, st => (none, st, 0)
  | fuel + 1, i, st =>
    let st' := saStep n s penalty rate neighborOf accept i st
    if st'.bestE = 0 ∧ isPerfectCode n s st'.best = true then (some st'.best, st', 1)
    else
      let rec' := saRunAux n s penalty rate neighborOf accept fuel (i + 1) st'
      (rec'.1, rec'.2.1, rec'.2.2 + 1)

/-- The initial state of `SimulatedAnnealingSearch.run`: the initial code (a
random sample in Python, passed explicitly here), its energy as both current
and best, and the configured initial temperature. -/
def saInit (n s : Nat) (penalty : Int) (t0 : ℚ) (init : List (List Bool)) : SAState :=
  let e := (saEnergy n s penalty init).1
  { current := init, curE := e, best := init, bestE := e, temp := t0 }

/-- The per-generation success check of `GeneticAlgorithmSearch.run`: best
fitness and the first individual attaining it (`none` when the population is
empty, where Python's `max([])` raises `ValueError`). -/
def gaGenBest (n s : Nat) (pop : List (List (List Bool))) :
    Option (Int × List (List Bool)) :=
  let fits := pop.map (gaCalculateFitness n s)
  match fits.max? with
  | none => none
  | some best => some (best, pop.getD (fits.findIdx (fun y => y == best)) [])

/-- The generation loop of `GeneticAlgorithmSearch.run`: if the best fitness
reaches `len(vertices)` and the verifier accepts the best individual, return
it; otherwise build the next population (elitism, selection, crossover and
mutation are randomized and abstracted as the oracle `evolve`) and continue;
after the generation budget, return `none`.  Also returns the number of
generations executed; an empty population is a Python `ValueError`, modelled
as `Except.error`. -/
def gaRunAux (n s : Nat)
    (evolve : Nat → List (List (List Bool)) → List (List (List Bool))) :
    Nat → List (List (List Bool)) → Except Unit (Option (List (List Bool)) × Nat)
  | 0, _ => .ok (none, 0)
  | fuel + 1, pop =>
    match gaGenBest n s pop with
    | none => .error ()
    | some (best, bestCode) =>
      if best ≥ ((generateVertices n s).length : Int) ∧ isPerfectCode n s bestCode = true
      then .ok (some bestCode, 1)
      else
        match gaRunAux n s evolve fuel (evolve fuel pop) with
        | .error e => .error e
        | .ok (r, k) => .ok (r, k + 1)

/-- The per-generation data of `MemeticAlgorithmSearch.run`: fitness data and
the first individual attaining the best fitness. -/
def memeticGenBest (n s : Nat) (pop : List (List (List Bool))) :
    Option ((Int × Nat × Nat) × List (List Bool)) :=
  let fd := pop.map (memeticCalculateFitness n s)
  let fits := fd.map (fun t => t.1)
  match fits.max? with
  | none => none
  | some best =>
    let idx := fits.findIdx (fun y => y == best)
    some (fd.getD idx (0, 0, 0), pop.getD idx [])

/-- The generation loop of `MemeticAlgorithmSearch.run`: if the best
individual has zero uncovered vertices and zero collisions and the verifier
accepts it, return it; otherwise evolve (selection, crossover, mutation and
local search abstracted as the oracle `evolve`) and continue; after the
generation budget, return `none`. -/
def memeticRunAux (n s : Nat)
    (evolve : Nat → List (List (List Bool)) → List (List (List Bool))) :
    Nat → List (List (List Bool)) → Except Unit (Option (List (List Bool)) × Nat)
  | 0, _ => .ok (none, 0)
  | fuel + 1, pop =>
    match memeticGenBest n s pop with
    | none => .error ()
    | some (data, bestCode) =>
      if data.2.1 = 0 ∧ data.2.2 = 0 ∧ isPerfectCode n s bestCode = true
      then .ok (some bestCode, 1)
      else
        match memeticRunAux n s evolve fuel (evolve fuel pop) with
        | .error e => .error e
        | .ok (r, k) => .ok (r, k + 1)

/-- C4: in the cube with n = 3 and s = 3, the vertex 111 is not a member and
the vertex 110 is a member, but the vertex set has 7 elements (every 3-bit
string except 111), not 6 as the claim states. -/
theorem c4_counterexample :
    ¬ (isMember 3 3 [true, true, true] = false ∧
       isMember 3 3 [true, true, false] = true ∧
       (vertexSet 3 3).card = 6) := by decide

/-- C4 amended: in the cube with n = 3 and s = 3, the vertex 111 is not a
member, the vertex 110 is a member, and the vertex set has exactly 7 elements. -/
theorem c4_amended :
    isMember 3 3 [true, true, true] = false ∧
    isMember 3 3 [true, true, false] = true ∧
    (vertexSet 3 3).card = 7 := by decide

theorem xorBits_length (a b : List Bool) : (xorBits a b).length = min a.length b.length := by
  simp [xorBits]

theorem xorBits_xorBits (a b : List Bool) (h : a.length = b.length) :
    xorBits (xorBits a b) b = a := by
  induction a generalizing b with
  | nil => cases b with
    | nil => rfl
    | cons y ys => simp at h
  | cons x xs ih =>
    cases b with
    | nil => simp at h
    | cons y ys =>
      simp only [List.length_cons, Nat.succ_inj] at h
      simp only [xorBits, List.zipWith_cons_cons]
      rw [show ((x != y) != y) = x by cases x <;> cases y <;> rfl]
      have := ih ys h
      simp only [xorBits] at this
      rw [this]

/-- C9: for a non-empty code of equal-length bit strings and a shift vector of
that same length, `create_coset` succeeds, preserves the length of the list,
and applying it twice with the same shift vector restores the original code. -/
theorem c9_coset_involution (code : List (List Bool)) (v : List Bool) (n : Nat)
    (hne : code ≠ []) (hlen : ∀ c ∈ code, c.length = n) (hv : v.length = n) :
    ∃ coset, createCoset code v = some coset ∧ coset.length = code.length ∧
      createCoset coset v = some code := by
  cases code with
  | nil => exact absurd rfl hne
  | cons c0 rest =>
    have hc0 : c0.length = n := hlen c0 (List.mem_cons_self c0 rest)
    have hx0 : (xorBits c0 v).length = c0.length := by
      rw [xorBits_length, hv, hc0]; exact Nat.min_self n
    have key : ((c0 :: rest).map (fun cw => xorBits cw v)).map (fun cw => xorBits cw v)
        = c0 :: rest := by
      rw [List.map_map]
      have h2 : ∀ c ∈ c0 :: rest,
          ((fun cw => xorBits cw v) ∘ fun cw => xorBits cw v) c = id c := by
        intro c hc
        simp only [Function.comp_apply, id_eq]
        exact xorBits_xorBits c v ((hlen c hc).trans hv.symm)
      rw [List.map_congr_left h2, List.map_id]
    refine ⟨(c0 :: rest).map (fun cw => xorBits cw v), ?_, by simp, ?_⟩
    · simp [createCoset, hv, hc0]
    · rw [List.map_cons]
      simp only [createCoset]
      rw [if_pos (by rw [hx0, hc0, hv])]
      rw [show ((xorBits c0 v :: List.map (fun cw => xorBits cw v) rest))
            = (c0 :: rest).map (fun cw => xorBits cw v) from rfl, key]

theorem c9_witness :
    ∃ coset, createCoset [[false, true], [true, true]] [true, false] = some coset ∧
      coset.length = 2 ∧
      createCoset coset [true, false] = some [[false, true], [true, true]] :=
  c9_coset_involution [[false, true], [true, true]] [true, false] 2
    (by decide) (by decide) (by decide)

/-- C10: `_crossover` fails (Python `ValueError` from an empty `randint` range)
exactly when one of the parents has fewer than 2 codewords; when both have at
least 2, it returns `parent1[:point] + parent2[point:]` for some cut point
between 1 and `min(len(parent1), len(parent2)) - 1`. -/
theorem c10_crossover (p1 p2 : List (List Bool)) (r : Nat) :
    ((p1.length < 2 ∨ p2.length < 2) → memeticCrossover p1 p2 r = none) ∧
    (2 ≤ p1.length → 2 ≤ p2.length →
      ∃ point, 1 ≤ point ∧ point ≤ min p1.length p2.length - 1 ∧
        memeticCrossover p1 p2 r = some (p1.take point ++ p2.drop point)) := by
  constructor
  · intro h
    have hm : min p1.length p2.length - 1 < 1 := by
      rcases h with h | h <;> omega
    simp [memeticCrossover, hm]
  · intro h1 h2
    have hm : ¬ (min p1.length p2.length - 1 < 1) := by omega
    have h3 : r % (min p1.length p2.length - 1) < min p1.length p2.length - 1 :=
      Nat.mod_lt r (by omega)
    refine ⟨1 + r % (min p1.length p2.length - 1), by omega, by omega, ?_⟩
    simp [memeticCrossover, hm]

theorem c10_witness : memeticCrossover [[true]] [[false]] 7 = none :=
  (c10_crossover [[true]] [[false]] 7).1 (Or.inl (by decide))

theorem listUnion_cons (n s : Nat) (c : List Bool) (C : List (List Bool)) :
    listUnion n s (c :: C) = nbhd n s c ∪ listUnion n s C := rfl

theorem mem_nbhd_self (n s : Nat) (v : List Bool) : v ∈ nbhd n s v :=
  Finset.mem_insert_self _ _

theorem nbhd_subset_listUnion (n s : Nat) (C : List (List Bool)) (c : List Bool)
    (hc : c ∈ C) : nbhd n s c ⊆ listUnion n s C := by
  induction C with
  | nil => simp at hc
  | cons d rest ih =>
    rcases List.mem_cons.mp hc with h | h
    · subst h; rw [listUnion_cons]; exact Finset.subset_union_left
    · rw [listUnion_cons]; exact (ih h).trans Finset.subset_union_right

theorem listUnion_disjoint_of_forall (n s : Nat) (C : List (List Bool))
    (t : Finset (List Bool)) (h : ∀ a ∈ C, Disjoint (nbhd n s a) t) :
    Disjoint (listUnion n s C) t := by
  induction C with
  | nil => simp [listUnion]
  | cons d rest ih =>
    rw [listUnion_cons, Finset.disjoint_union_left]
    exact ⟨h d (List.mem_cons_self d rest),
      ih (fun a ha => h a (List.mem_cons_of_mem d ha))⟩

theorem isPerfectCodeAux_true_iff (n s : Nat) (C : List (List Bool)) :
    ∀ covered : Finset (List Bool),
      isPerfectCodeAux n s covered C = true ↔
        ((∀ c ∈ C, c ∈ vertexSet n s) ∧
         C.Pairwise (fun a b => Disjoint (nbhd n s a) (nbhd n s b)) ∧
         (∀ c ∈ C, Disjoint covered (nbhd n s c)) ∧
         covered ∪ listUnion n s C = vertexSet n s) := by
  induction C with
  | nil =>
    intro covered
    simp [isPerfectCodeAux, listUnion]
  | cons c rest ih =>
    intro covered
    by_cases hc : c ∈ vertexSet n s
    · by_cases hd : covered ∩ nbhd n s c = ∅
      · have hdisj : Disjoint covered (nbhd n s c) :=
          Finset.disjoint_iff_inter_eq_empty.mpr hd
        rw [show isPerfectCodeAux n s covered (c :: rest)
              = isPerfectCodeAux n s (covered ∪ nbhd n s c) rest by
            simp [isPerfectCodeAux, hc, hd]]
        rw [ih (covered ∪ nbhd n s c)]
        constructor
        · rintro ⟨h1, h2, h3, h4⟩
          refine ⟨?_, ?_, ?_, ?_⟩
          · intro x hx
            rcases List.mem_cons.mp hx with h | h
            · exact h ▸ hc
            · exact h1 x h
          · rw [List.pairwise_cons]
            exact ⟨fun b hb => (Finset.disjoint_union_left.mp (h3 b hb)).2, h2⟩
          · intro x hx
            rcases List.mem_cons.mp hx with h | h
            · exact h ▸ hdisj
            · exact (Finset.disjoint_union_left.mp (h3 x h)).1
          · rw [listUnion_cons, ← Finset.union_assoc]; exact h4
        · rintro ⟨h1, h2, h3, h4⟩
          rw [List.pairwise_cons] at h2
          refine ⟨fun x hx => h1 x (List.mem_cons_of_mem c hx), h2.2, ?_, ?_⟩
          · intro x hx
            rw [Finset.disjoint_union_left]
            exact ⟨h3 x (List.mem_cons_of_mem c hx), h2.1 x hx⟩
          · rw [listUnion_cons, ← Finset.union_assoc] at h4; exact h4
      · rw [show isPerfectCodeAux n s covered (c :: rest) = false by
            simp [isPerfectCodeAux, hc, hd]]
        simp only [Bool.false_eq_true, false_iff]
        rintro ⟨-, -, h3, -⟩
        exact hd (Finset.disjoint_iff_inter_eq_empty.mp
          (h3 c (List.mem_cons_self c rest)))
    · rw [show isPerfectCodeAux n s covered (c :: rest) = false by
          simp [isPerfectCodeAux, hc]]
      simp only [Bool.false_eq_true, false_iff]
      rintro ⟨h1, -, -, -⟩
      exact hc (h1 c (List.mem_cons_self c rest))

theorem isPerfectCode_true_iff (n s : Nat) (C : List (List Bool)) :
    isPerfectCode n s C = true ↔
      C ≠ [] ∧ C.Pairwise (fun a b => Disjoint (nbhd n s a) (nbhd n s b)) ∧
      listUnion n s C = vertexSet n s := by
  cases C with
  | nil => simp [isPerfectCode]
  | cons c rest =>
    rw [show isPerfectCode n s (c :: rest) = isPerfectCodeAux n s ∅ (c :: rest)
          from rfl,
      isPerfectCodeAux_true_iff]
    constructor
    · rintro ⟨h1, h2, h3, h4⟩
      exact ⟨List.cons_ne_nil c rest, h2, by simpa using h4⟩
    · rintro ⟨-, h2, h4⟩
      refine ⟨?_, h2, fun x hx => Finset.disjoint_empty_left _, by simpa using h4⟩
      intro x hx
      exact (h4 ▸ nbhd_subset_listUnion n s _ x hx) (mem_nbhd_self n s x)

theorem natToBits_zero (k : Nat) : natToBits k 0 = List.replicate k false := by
  induction k with
  | zero => rfl
  | succ m ih =>
    rw [natToBits]
    simp [ih, List.replicate_succ']

theorem replicate_false_not_forbidden (n s : Nat) (hs : 1 ≤ s) :
    hasForbiddenSubstring (List.replicate n false) (List.replicate s true) = false := by
  have hmem : ∀ (l : List Bool), (∀ b ∈ l, b = false) →
      ¬ (List.replicate s true <:+: l) := by
    intro l hl h
    have : (true : Bool) ∈ l :=
      List.IsInfix.subset h (List.mem_replicate.mpr ⟨by omega, rfl⟩)
    simpa using hl true this
  simp only [hasForbiddenSubstring, List.length_replicate]
  by_cases h1 : n < s
  · simp [h1]
  · rw [if_neg h1]
    rw [if_neg (hmem _ (fun b hb => List.eq_of_mem_replicate hb))]
    by_cases h2 : 1 < s
    · rw [if_pos h2]
      simp only [decide_eq_false_iff_not]
      apply hmem
      intro b hb
      rcases List.mem_append.mp hb with h | h
      · exact List.eq_of_mem_replicate (List.mem_of_mem_drop h)
      · exact List.eq_of_mem_replicate (List.mem_of_mem_take h)
    · rw [if_neg h2]

theorem replicate_false_mem_vertexSet (n s : Nat) (hs : 1 ≤ s) :
    List.replicate n false ∈ vertexSet n s := by
  rw [vertexSet, List.mem_toFinset, generateVertices, List.mem_filter]
  constructor
  · rw [List.mem_map]
    exact ⟨0, List.mem_range.mpr (by positivity), natToBits_zero n⟩
  · rw [replicate_false_not_forbidden n s hs]
    rfl

/-- C1: `is_perfect_code` returns false on the empty code and on any code
containing a non-member vertex; it returns false whenever some codeword's
neighborhood meets the union of the neighborhoods of the codewords before it;
and it returns true exactly when the codewords' neighborhoods are pairwise
disjoint and their union is the whole vertex set. -/
theorem c1_is_perfect_code_spec (n s : Nat) (hn : 1 ≤ n) (hs : 2 ≤ s)
    (C : List (List Bool)) :
    (C = [] → isPerfectCode n s C = false) ∧
    ((∃ v ∈ C, v ∉ vertexSet n s) → isPerfectCode n s C = false) ∧
    (∀ C1 c C2, C = C1 ++ c :: C2 → ¬ Disjoint (listUnion n s C1) (nbhd n s c) →
      isPerfectCode n s C = false) ∧
    (isPerfectCode n s C = true ↔
      (C.Pairwise (fun a b => Disjoint (nbhd n s a) (nbhd n s b)) ∧
       listUnion n s C = vertexSet n s)) := by
  have hVne : (vertexSet n s).Nonempty :=
    ⟨List.replicate n false, replicate_false_mem_vertexSet n s (by omega)⟩
  have hiff : isPerfectCode n s C = true ↔
      (C.Pairwise (fun a b => Disjoint (nbhd n s a) (nbhd n s b)) ∧
       listUnion n s C = vertexSet n s) := by
    rw [isPerfectCode_true_iff]
    constructor
    · rintro ⟨-, h2, h4⟩; exact ⟨h2, h4⟩
    · rintro ⟨h2, h4⟩
      refine ⟨?_, h2, h4⟩
      rintro rfl
      rw [show listUnion n s [] = ∅ from rfl] at h4
      exact Finset.nonempty_iff_ne_empty.mp hVne h4.symm
  refine ⟨?_, ?_, ?_, hiff⟩
  · rintro rfl; rfl
  · rintro ⟨v, hv, hnv⟩
    rcases Bool.eq_false_or_eq_true (isPerfectCode n s C) with ht | hf
    case inr => exact hf
    · exact absurd
        ((hiff.mp ht).2 ▸ nbhd_subset_listUnion n s C v hv (mem_nbhd_self n s v)) hnv
  · intro C1 c C2 hC hnd
    rcases Bool.eq_false_or_eq_true (isPerfectCode n s C) with ht | hf
    case inr => exact hf
    · exfalso
      apply hnd
      have hp := (hiff.mp ht).1
      rw [hC] at hp
      have hp2 := (List.pairwise_append.mp hp).2.2
      exact listUnion_disjoint_of_forall n s C1 (nbhd n s c)
        (fun a ha => hp2 a ha c (List.mem_cons_self c C2))

theorem c1_witness :
    isPerfectCode 3 3 [[false, true, false], [true, false, true]] = true :=
  (c1_is_perfect_code_spec 3 3 (by decide) (by decide)
    [[false, true, false], [true, false, true]]).2.2.2.mpr (by decide)

/-- C8: a code that repeats a cube-member vertex at two distinct positions
(with every element before the repeat also a member) is rejected by
`is_perfect_code`: the repeated codeword's neighborhood overlaps the coverage
accumulated by its first occurrence. -/
theorem c8_duplicate_rejected (n s : Nat) (A B D : List (List Bool)) (v : List Bool)
    (hv : v ∈ vertexSet n s)
    (hearlier : ∀ w ∈ A ++ v :: B, w ∈ vertexSet n s) :
    isPerfectCode n s (A ++ v :: B ++ v :: D) = false := by
  rcases Bool.eq_false_or_eq_true (isPerfectCode n s (A ++ v :: B ++ v :: D)) with ht | hf
  case inr => exact hf
  · exfalso
    have hp := ((isPerfectCode_true_iff n s _).mp ht).2.1
    have hvv : Disjoint (nbhd n s v) (nbhd n s v) :=
      (List.pairwise_append.mp hp).2.2 v
        (List.mem_append_right A (List.mem_cons_self v B)) v
        (List.mem_cons_self v D)
    exact Finset.not_mem_empty v
      ((Finset.disjoint_self_iff_empty _).mp hvv ▸ mem_nbhd_self n s v)

theorem c8_witness :
    isPerfectCode 3 3
      [[false, true, false], [true, false, true], [false, true, false]] = false :=
  c8_duplicate_rejected 3 3 [] [[true, false, true]] [] [false, true, false]
    (by decide) (by decide)

theorem gaFitnessAux_fst (n s : Nat) (C : List (List Bool)) :
    ∀ (covered : Finset (List Bool)) (k : Nat),
      (gaFitnessAux n s covered k C).1 = covered ∪ listUnion n s C := by
  induction C with
  | nil => intro covered k; simp [gaFitnessAux, listUnion]
  | cons c rest ih =>
    intro covered k
    rw [show gaFitnessAux n s covered k (c :: rest)
          = gaFitnessAux n s (covered ∪ nbhd n s c)
              (if covered ∩ nbhd n s c = ∅ then k else k + 1) rest from rfl]
    rw [ih, listUnion_cons, ← Finset.union_assoc]

theorem gaFitnessAux_snd (n s : Nat) (C : List (List Bool)) :
    ∀ (covered : Finset (List Bool)) (k : Nat),
      (gaFitnessAux n s covered k C).2 =
        k + (List.range C.length).countP
          (fun j => !(decide (Disjoint (covered ∪ listUnion n s (C.take j))
            (nbhd n s (C.getD j []))))) := by
  induction C with
  | nil => intro covered k; simp [gaFitnessAux]
  | cons c rest ih =>
    intro covered k
    rw [show gaFitnessAux n s covered k (c :: rest)
          = gaFitnessAux n s (covered ∪ nbhd n s c)
              (if covered ∩ nbhd n s c = ∅ then k else k + 1) rest from rfl]
    rw [ih]
    rw [show (c :: rest).length = rest.length + 1 from rfl, List.range_succ_eq_map]
    rw [List.countP_cons, List.countP_map]
    have htail : ((fun j => !(decide (Disjoint (covered ∪ listUnion n s ((c :: rest).take j))
            (nbhd n s ((c :: rest).getD j []))))) ∘ Nat.succ)
        = (fun j => !(decide (Disjoint ((covered ∪ nbhd n s c) ∪ listUnion n s (rest.take j))
            (nbhd n s (rest.getD j []))))) := by
      funext j
      simp only [Function.comp_apply]
      rw [show (c :: rest).take (j + 1) = c :: rest.take j from rfl,
        show (c :: rest).getD (j + 1) [] = rest.getD j [] from rfl,
        listUnion_cons, ← Finset.union_assoc]
    rw [htail]
    simp only [List.take_zero, List.getD_cons_zero,
      show listUnion n s [] = ∅ from rfl, Finset.union_empty]
    by_cases hd : Disjoint covered (nbhd n s c)
    · rw [if_pos (Finset.disjoint_iff_inter_eq_empty.mp hd)]
      simp [hd]
    · rw [if_neg (fun h => hd (Finset.disjoint_iff_inter_eq_empty.mpr h))]
      simp [hd]
      omega

/-- C5 counterexample: for the code [000, 001, 010] in the cube with n = 3,
s = 3, the GA fitness is -73 (two incremental collisions), while the claimed
formula with pairwise distance-below-3 collisions (three pairs) gives -113. -/
theorem c5_counterexample :
    gaCalculateFitness 3 3 [[false, false, false], [false, false, true], [false, true, false]] ≠
      ((listUnion 3 3 [[false, false, false], [false, false, true], [false, true, false]]).card : Int)
        - (pairCollisions [[false, false, false], [false, false, true], [false, true, false]] : Int)
          * ((3 : Int) + 1) * 10 := by decide

/-- C5 amended: the GA fitness equals coverage minus
`collisions * (n + 1) * 10`, where `collisions` is the number of positions
whose codeword's neighborhood meets the union of the neighborhoods of the
codewords at earlier positions (not the number of unordered pairs at Hamming
distance below 3). -/
theorem c5_amended (n s : Nat) (C : List (List Bool)) :
    gaCalculateFitness n s C =
      ((listUnion n s C).card : Int)
        - (incrCollisions n s C : Int) * ((n : Int) + 1) * 10 := by
  show ((gaFitnessAux n s ∅ 0 C).1.card : Int)
      - ((gaFitnessAux n s ∅ 0 C).2 : Int) * ((n : Int) + 1) * 10 = _
  rw [gaFitnessAux_fst, gaFitnessAux_snd, Finset.empty_union, Nat.zero_add]
  simp only [Finset.empty_union]
  rfl

theorem gaRunAux_none_budget (n s : Nat)
    (evolve : Nat → List (List (List Bool)) → List (List (List Bool))) :
    ∀ (fuel : Nat) (pop : List (List (List Bool))) (k : Nat),
      gaRunAux n s evolve fuel pop = .ok (none, k) → k = fuel := by
  intro fuel
  induction fuel with
  | zero =>
    intro pop k h
    rw [gaRunAux] at h
    simp only [Except.ok.injEq, Prod.mk.injEq] at h
    omega
  | succ f ih =>
    intro pop k h
    rw [gaRunAux] at h
    split at h
    · simp at h
    · split at h
      · simp at h
      · split at h
        · simp at h
        · rename_i r k' heq
          simp only [Except.ok.injEq, Prod.mk.injEq] at h
          obtain ⟨h1, h2⟩ := h
          have := ih (evolve f pop) k' (by rw [heq, h1])
          omega

theorem memeticRunAux_none_budget (n s : Nat)
    (evolve : Nat → List (List (List Bool)) → List (List (List Bool))) :
    ∀ (fuel : Nat) (pop : List (List (List Bool))) (k : Nat),
      memeticRunAux n s evolve fuel pop = .ok (none, k) → k = fuel := by
  intro fuel
  induction fuel with
  | zero =>
    intro pop k h
    rw [memeticRunAux] at h
    simp only [Except.ok.injEq, Prod.mk.injEq] at h
    omega
  | succ f ih =>
    intro pop k h
    rw [memeticRunAux] at h
    split at h
    · simp at h
    · split at h
      · simp at h
      · split at h
        · simp at h
        · rename_i r k' heq
          simp only [Except.ok.injEq, Prod.mk.injEq] at h
          obtain ⟨h1, h2⟩ := h
          have := ih (evolve f pop) k' (by rw [heq, h1])
          omega

theorem saRunAux_none_budget (n s : Nat) (penalty : Int) (rate : ℚ)
    (neighborOf : Nat → List (List Bool) → List (List Bool)) (accept : Nat → Bool) :
    ∀ (fuel i : Nat) (st : SAState),
      (saRunAux n s penalty rate neighborOf accept fuel i st).1 = none →
      (saRunAux n s penalty rate neighborOf accept fuel i st).2.2 = fuel := by
  intro fuel
  induction fuel with
  | zero => intro i st _; rfl
  | succ f ih =>
    intro i st h
    rw [saRunAux] at h ⊢
    by_cases hc : (saStep n s penalty rate neighborOf accept i st).bestE = 0 ∧
        isPerfectCode n s (saStep n s penalty rate neighborOf accept i st).best = true
    · rw [if_pos hc] at h; simp at h
    · rw [if_neg hc] at h ⊢
      have := ih (i + 1) (saStep n s penalty rate neighborOf accept i st) h
      simpa using this

theorem theoreticalCodeSize_natCast_iff (n s : Nat) :
    (∃ m : ℕ, theoreticalCodeSize n s = (m : ℚ)) ↔ (n + 1) ∣ (vertexSet n s).card := by
  unfold theoreticalCodeSize
  have hne : ((n : ℚ) + 1) ≠ 0 := by positivity
  constructor
  · rintro ⟨m, hm⟩
    rw [div_eq_iff hne] at hm
    have : ((vertexSet n s).card : ℚ) = (((n + 1) * m : ℕ) : ℚ) := by push_cast; linarith
    exact ⟨m, by exact_mod_cast this⟩
  · rintro ⟨m, hm⟩
    refine ⟨m, ?_⟩
    rw [hm, div_eq_iff hne]
    push_cast
    ring

/-- C3 counterexample: for the cube with n = 3, s = 3 the theoretical code
size 7/4 is non-integral, yet none of the three engines terminates early: with
a budget of 3 generations/iterations and trivial randomness oracles, each runs
all 3 rounds and returns the plain failure value (there is no
InfeasibleParameters report anywhere in their result types). -/
theorem c3_counterexample :
    (¬ ∃ m : ℕ, theoreticalCodeSize 3 3 = (m : ℚ)) ∧
    gaRunAux 3 3 (fun _ p => p) 3 [[[false, false, false]]] = .ok (none, 3) ∧
    memeticRunAux 3 3 (fun _ p => p) 3 [[[false, false, false]]] = .ok (none, 3) ∧
    (saRunAux 3 3 60 (1/2 : ℚ) (fun _ c => c) (fun _ => false) 3 0
        (saInit 3 3 60 1000 [[false, false, false]])).1 = none ∧
    (saRunAux 3 3 60 (1/2 : ℚ) (fun _ c => c) (fun _ => false) 3 0
        (saInit 3 3 60 1000 [[false, false, false]])).2.2 = 3 :=
  ⟨by rw [theoreticalCodeSize_natCast_iff]; decide, rfl, rfl, rfl, rfl⟩

/-- C3 amended: none of the three engines checks
`theoretical_code_size` for integrality; even when it is non-integral, any run
that ends in failure (`none`) has consumed its entire generation/iteration
budget, for every choice of the randomness oracles. -/
theorem c3_amended (n s : Nat) (penalty : Int) (rate : ℚ)
    (evolveG evolveM : Nat → List (List (List Bool)) → List (List (List Bool)))
    (neighborOf : Nat → List (List Bool) → List (List Bool)) (accept : Nat → Bool)
    (hinf : ¬ ∃ m : ℕ, theoreticalCodeSize n s = (m : ℚ)) :
    (∀ fuel pop k, gaRunAux n s evolveG fuel pop = .ok (none, k) → k = fuel) ∧
    (∀ fuel pop k, memeticRunAux n s evolveM fuel pop = .ok (none, k) → k = fuel) ∧
    (∀ fuel i st,
      (saRunAux n s penalty rate neighborOf accept fuel i st).1 = none →
      (saRunAux n s penalty rate neighborOf accept fuel i st).2.2 = fuel) :=
  ⟨gaRunAux_none_budget n s evolveG, memeticRunAux_none_budget n s evolveM,
    saRunAux_none_budget n s penalty rate neighborOf accept⟩

theorem c3_witness : (¬ ∃ m : ℕ, theoreticalCodeSize 3 3 = (m : ℚ)) ∧ (3 : Nat) = 3 :=
  ⟨by rw [theoreticalCodeSize_natCast_iff]; decide,
    (c3_amended 3 3 60 (1/2) (fun _ p => p) (fun _ p => p) (fun _ c => c)
        (fun _ => false)
        (by rw [theoreticalCodeSize_natCast_iff]; decide)).1
      3 [[[false, false, false]]] 3 rfl⟩

theorem gaRunAux_success_verified (n s : Nat)
    (evolve : Nat → List (List (List Bool)) → List (List (List Bool))) :
    ∀ (fuel : Nat) (pop : List (List (List Bool))) (code : List (List Bool)) (k : Nat),
      gaRunAux n s evolve fuel pop = .ok (some code, k) →
      isPerfectCode n s code = true := by
  intro fuel
  induction fuel with
  | zero => intro pop code k h; rw [gaRunAux] at h; simp at h
  | succ f ih =>
    intro pop code k h
    rw [gaRunAux] at h
    split at h
    · simp at h
    · split at h
      · rename_i best bestCode hc
        simp only [Except.ok.injEq, Prod.mk.injEq, Option.some.injEq] at h
        exact h.1 ▸ hc.2
      · split at h
        · simp at h
        · rename_i r k' heq
          simp only [Except.ok.injEq, Prod.mk.injEq] at h
          exact ih (evolve f pop) code k' (by rw [heq, h.1])

theorem memeticRunAux_success_verified (n s : Nat)
    (evolve : Nat → List (List (List Bool)) → List (List (List Bool))) :
    ∀ (fuel : Nat) (pop : List (List (List Bool))) (code : List (List Bool)) (k : Nat),
      memeticRunAux n s evolve fuel pop = .ok (some code, k) →
      isPerfectCode n s code = true := by
  intro fuel
  induction fuel with
  | zero => intro pop code k h; rw [memeticRunAux] at h; simp at h
  | succ f ih =>
    intro pop code k h
    rw [memeticRunAux] at h
    split at h
    · simp at h
    · split at h
      · rename_i data bestCode hc
        simp only [Except.ok.injEq, Prod.mk.injEq, Option.some.injEq] at h
        exact h.1 ▸ hc.2.2
      · split at h
        · simp at h
        · rename_i r k' heq
          simp only [Except.ok.injEq, Prod.mk.injEq] at h
          exact ih (evolve f pop) code k' (by rw [heq, h.1])

theorem saRunAux_success_verified (n s : Nat) (penalty : Int) (rate : ℚ)
    (neighborOf : Nat → List (List Bool) → List (List Bool)) (accept : Nat → Bool) :
    ∀ (fuel i : Nat) (st : SAState) (code : List (List Bool)),
      (saRunAux n s penalty rate neighborOf accept fuel i st).1 = some code →
      isPerfectCode n s code = true := by
  intro fuel
  induction fuel with
  | zero => intro i st code h; simp [saRunAux] at h
  | succ f ih =>
    intro i st code h
    rw [saRunAux] at h
    split at h
    · rename_i hc
      simp only [Option.some.injEq] at h
      exact h ▸ hc.2
    · exact ih (i + 1) _ code h

/-- C6: whenever any of the three engines returns a code (rather than the
failure value), that code passes the authoritative `is_perfect_code` check;
no heuristic signal alone can produce a success return. -/
theorem c6_success_is_verified (n s : Nat) (penalty : Int) (rate : ℚ)
    (evolveG evolveM : Nat → List (List (List Bool)) → List (List (List Bool)))
    (neighborOf : Nat → List (List Bool) → List (List Bool)) (accept : Nat → Bool) :
    (∀ fuel pop code k, gaRunAux n s evolveG fuel pop = .ok (some code, k) →
      isPerfectCode n s code = true) ∧
    (∀ fuel pop code k, memeticRunAux n s evolveM fuel pop = .ok (some code, k) →
      isPerfectCode n s code = true) ∧
    (∀ fuel i st code,
      (saRunAux n s penalty rate neighborOf accept fuel i st).1 = some code →
      isPerfectCode n s code = true) :=
  ⟨gaRunAux_success_verified n s evolveG, memeticRunAux_success_verified n s evolveM,
    saRunAux_success_verified n s penalty rate neighborOf accept⟩

theorem c6_witness :
    isPerfectCode 3 3 [[false, true, false], [true, false, true]] = true :=
  (c6_success_is_verified 3 3 60 (1/2) (fun _ p => p) (fun _ p => p) (fun _ c => c)
      (fun _ => false)).2.2
    1 0 (saInit 3 3 60 1000 [[false, true, false], [true, false, true]])
    [[false, true, false], [true, false, true]] rfl

theorem replicate_true_infix_iff (s : Nat) (l : List Bool) :
    List.replicate s true <:+: l ↔
      ∃ j, j + s ≤ l.length ∧ ∀ t, t < s → l.getD (j + t) false = true := by
  constructor
  · rintro ⟨u, w, huw⟩
    subst huw
    refine ⟨u.length, by simp only [List.length_append, List.length_replicate]; omega, ?_⟩
    intro t ht
    rw [List.getD_append _ w false _
      (by simp only [List.length_append, List.length_replicate]; omega)]
    rw [List.getD_append_right u _ false _ (by omega)]
    rw [Nat.add_sub_cancel_left]
    rw [List.getD_eq_getElem _ false (by simp only [List.length_replicate]; omega)]
    exact List.getElem_replicate true _
  · rintro ⟨j, hj, hget⟩
    have hslice : (l.drop j).take s = List.replicate s true := by
      apply List.ext_getElem
      · simp only [List.length_take, List.length_drop, List.length_replicate]; omega
      · intro i h1 h2
        rw [List.getElem_take (l.drop j), List.getElem_drop l, List.getElem_replicate]
        have h3 : i < s := by simpa using h2
        have h4 : j + i < l.length := by omega
        rw [← List.getD_eq_getElem l false h4]
        exact hget i h3
    have h1 : (l.drop j).take s <+: l.drop j := List.take_prefix s (l.drop j)
    have h2 : l.drop j <:+ l := List.drop_suffix j l
    exact hslice ▸ List.IsInfix.trans ( List.IsPrefix.isInfix h1)
      ( List.IsSuffix.isInfix h2)

theorem seam_getD (l : List Bool) (s q : Nat) (hs1 : 1 ≤ s) (hsn : s ≤ l.length)
    (hq : q < 2 * s - 2) :
    (l.drop (l.length - s + 1) ++ l.take (s - 1)).getD q false
      = l.getD ((l.length - s + 1 + q) % l.length) false := by
  by_cases hcase : q < s - 1
  · rw [List.getD_append _ _ false q (by simp only [List.length_drop]; omega)]
    have h1 : q < (l.drop (l.length - s + 1)).length := by
      simp only [List.length_drop]; omega
    rw [List.getD_eq_getElem _ false h1, List.getElem_drop l]
    rw [← List.getD_eq_getElem l false (by omega)]
    rw [Nat.mod_eq_of_lt (by omega)]
  · rw [List.getD_append_right _ _ false q (by simp only [List.length_drop]; omega)]
    have hlen : (l.drop (l.length - s + 1)).length = s - 1 := by
      simp only [List.length_drop]; omega
    rw [hlen]
    rw [List.getD_eq_getElem _ false (by simp only [List.length_take]; omega)]
    rw [List.getElem_take l]
    rw [← List.getD_eq_getElem l false (by omega)]
    congr 1
    have heq : l.length - s + 1 + q = l.length + (q - (s - 1)) := by omega
    rw [heq, Nat.add_mod_left, Nat.mod_eq_of_lt (by omega)]

theorem rotate_getD (l : List Bool) (k q : Nat) (hq : q < l.length) :
    (l.rotate k).getD q false = l.getD ((q + k) % l.length) false := by
  have h1 : q < (l.rotate k).length := by rw [List.length_rotate]; exact hq
  rw [List.getD_eq_getElem _ false h1, List.getElem_rotate l k q h1,
    List.getD_eq_getElem _ false (Nat.mod_lt _ (by omega))]

theorem hasForbidden_iff_exists_run (l : List Bool) (s : Nat)
    (hs : 1 ≤ s) (hsn : s ≤ l.length) :
    hasForbiddenSubstring l (List.replicate s true) = true ↔
      ∃ j < l.length, ∀ t < s, l.getD ((j + t) % l.length) false = true := by
  simp only [hasForbiddenSubstring, List.length_replicate]
  rw [if_neg (by omega)]
  constructor
  · intro h
    by_cases hlin : List.replicate s true <:+: l
    · obtain ⟨j, hj, hget⟩ := (replicate_true_infix_iff s l).mp hlin
      refine ⟨j, by omega, ?_⟩
      intro t ht
      rw [Nat.mod_eq_of_lt (by omega)]
      exact hget t ht
    · rw [if_neg hlin] at h
      by_cases h2 : 1 < s
      · rw [if_pos h2] at h
        obtain ⟨p, hp, hget⟩ :=
          (replicate_true_infix_iff s _).mp (of_decide_eq_true h)
        have hseam : (l.drop (l.length - s + 1) ++ l.take (s - 1)).length
            = 2 * s - 2 := by
          simp only [List.length_append, List.length_drop, List.length_take]; omega
      -- p + s ≤ 2 * s - 2
        rw [hseam] at hp
        refine ⟨l.length - s + 1 + p, by omega, ?_⟩
        intro t ht
        rw [show l.length - s + 1 + p + t = l.length - s + 1 + (p + t) by omega]
        rw [← seam_getD l s (p + t) hs hsn (by omega)]
        exact hget t ht
      · rw [if_neg h2] at h
        exact absurd h (by simp)
  · rintro ⟨j, hj, hrun⟩
    by_cases hcase : j + s ≤ l.length
    · have hlin : List.replicate s true <:+: l := by
        apply (replicate_true_infix_iff s l).mpr
        refine ⟨j, hcase, ?_⟩
        intro t ht
        have h5 := hrun t ht
        rwa [Nat.mod_eq_of_lt (by omega)] at h5
      rw [if_pos hlin]
    · have hs2 : 1 < s := by omega
      have hseaminf : List.replicate s true <:+:
          (l.drop (l.length - s + 1) ++ l.take (s - 1)) := by
        apply (replicate_true_infix_iff s _).mpr
        refine ⟨j - (l.length - s + 1), ?_, ?_⟩
        · simp only [List.length_append, List.length_drop, List.length_take]; omega
        · intro t ht
          rw [seam_getD l s _ hs hsn (by omega)]
          rw [show l.length - s + 1 + (j - (l.length - s + 1) + t) = j + t by omega]
          exact hrun t ht
      by_cases hlin : List.replicate s true <:+: l
      · rw [if_pos hlin]
      · rw [if_neg hlin, if_pos hs2]
        exact decide_eq_true hseaminf

theorem exists_rotate_iff_exists_run (l : List Bool) (s : Nat)
    (hn : 0 < l.length) (hsn : s ≤ l.length) :
    (∃ k, List.replicate s true <:+: l.rotate k) ↔
      ∃ j < l.length, ∀ t < s, l.getD ((j + t) % l.length) false = true := by
  constructor
  · rintro ⟨k, hk⟩
    obtain ⟨t0, ht0, hget⟩ := (replicate_true_infix_iff s _).mp hk
    rw [List.length_rotate] at ht0
    refine ⟨(t0 + k) % l.length, Nat.mod_lt _ hn, ?_⟩
    intro t ht
    rw [Nat.mod_add_mod]
    have hg := hget t ht
    rw [rotate_getD l k (t0 + t) (by omega)] at hg
    rw [show t0 + k + t = t0 + t + k by omega]
    exact hg
  · rintro ⟨j, hj, hrun⟩
    refine ⟨j, (replicate_true_infix_iff s _).mpr ⟨0, ?_, ?_⟩⟩
    · rw [List.length_rotate]; omega
    · intro t ht
      rw [Nat.zero_add, rotate_getD l j t (by omega),
        show t + j = j + t by omega]
      exact hrun t ht

theorem hasForbidden_iff_rotate (l : List Bool) (s : Nat) (hs : 1 ≤ s) :
    hasForbiddenSubstring l (List.replicate s true) = true ↔
      ∃ k, List.replicate s true <:+: l.rotate k := by
  by_cases hsn : s ≤ l.length
  · have hn : 0 < l.length := by omega
    rw [hasForbidden_iff_exists_run l s hs hsn,
      exists_rotate_iff_exists_run l s hn hsn]
  · constructor
    · intro h
      exfalso
      simp only [hasForbiddenSubstring, List.length_replicate] at h
      rw [if_pos (by omega)] at h
      exact absurd h (by simp)
    · rintro ⟨k, hk⟩
      have hle := List.IsInfix.length_le hk
      rw [List.length_replicate, List.length_rotate] at hle
      omega

theorem natToBits_length : ∀ (k i : Nat), (natToBits k i).length = k := by
  intro k
  induction k with
  | zero => intro i; rfl
  | succ m ih => intro i; rw [natToBits]; simp [ih]

theorem bitsToNat_append_bit (l : List Bool) (b : Bool) :
    bitsToNat (l ++ [b]) = 2 * bitsToNat l + (if b then 1 else 0) := by
  simp [bitsToNat, List.foldl_append]

theorem bitsToNat_lt (l : List Bool) : bitsToNat l < 2 ^ l.length := by
  induction l using List.reverseRecOn with
  | nil => simp [bitsToNat]
  | append_singleton l b ih =>
    rw [bitsToNat_append_bit]
    have h2 : 2 ^ (l ++ [b]).length = 2 * 2 ^ l.length := by
      simp [List.length_append]; ring
    rw [h2]
    cases b <;> simp <;> omega

theorem natToBits_bitsToNat (l : List Bool) : natToBits l.length (bitsToNat l) = l := by
  induction l using List.reverseRecOn with
  | nil => rfl
  | append_singleton l b ih =>
    rw [bitsToNat_append_bit, show (l ++ [b]).length = l.length + 1 by simp,
      natToBits]
    have hdiv : (2 * bitsToNat l + (if b then 1 else 0)) / 2 = bitsToNat l := by
      cases b <;> simp <;> omega
    have hmod : decide ((2 * bitsToNat l + (if b then 1 else 0)) % 2 = 1) = b := by
      cases b <;> simp [Nat.mul_add_mod]
    rw [hdiv, hmod, ih]

theorem mem_generateVertices_iff (n s : Nat) (v : List Bool) :
    v ∈ generateVertices n s ↔
      v.length = n ∧ hasForbiddenSubstring v (List.replicate s true) = false := by
  unfold generateVertices
  rw [List.mem_filter]
  constructor
  · rintro ⟨hmem, hp⟩
    rw [List.mem_map] at hmem
    obtain ⟨i, hi, rfl⟩ := hmem
    exact ⟨natToBits_length n i, by simpa using hp⟩
  · rintro ⟨hlen, hforb⟩
    refine ⟨?_, by simp [hforb]⟩
    rw [List.mem_map]
    refine ⟨bitsToNat v, List.mem_range.mpr ?_, ?_⟩
    · have hlt := bitsToNat_lt v; rwa [hlen] at hlt
    · rw [← hlen]; exact natToBits_bitsToNat v

/-- C2: a bit string is a member of the cube with parameters n, s exactly when
it has length n and no circular rotation of it contains a run of s consecutive
set bits; and whenever n < s the generated vertex list has all 2^n strings. -/
theorem c2_membership_spec (n s : Nat) (hn : 1 ≤ n) (hs : 2 ≤ s) :
    (∀ v : List Bool,
      isMember n s v = true ↔
        (v.length = n ∧ ∀ k, ¬ List.replicate s true <:+: v.rotate k)) ∧
    (n < s → (generateVertices n s).length = 2 ^ n) := by
  constructor
  · intro v
    rw [show (isMember n s v = true) ↔ v ∈ vertexSet n s by simp [isMember],
      vertexSet, List.mem_toFinset, mem_generateVertices_iff]
    constructor
    · rintro ⟨hlen, hforb⟩
      refine ⟨hlen, ?_⟩
      intro k hk
      have hcontra : hasForbiddenSubstring v (List.replicate s true) = true :=
        (hasForbidden_iff_rotate v s (by omega)).mpr ⟨k, hk⟩
      rw [hcontra] at hforb
      exact absurd hforb (by simp)
    · rintro ⟨hlen, hrot⟩
      refine ⟨hlen, ?_⟩
      rcases Bool.eq_false_or_eq_true
          (hasForbiddenSubstring v (List.replicate s true)) with ht | hf
      · obtain ⟨k, hk⟩ := (hasForbidden_iff_rotate v s (by omega)).mp ht
        exact absurd hk (hrot k)
      · exact hf
  · intro hns
    unfold generateVertices
    have hall : ∀ a ∈ (List.range (2 ^ n)).map (natToBits n),
        (fun bits => !hasForbiddenSubstring bits (List.replicate s true)) a = true := by
      intro a ha
      rw [List.mem_map] at ha
      obtain ⟨i, hi, rfl⟩ := ha
      have hlen := natToBits_length n i
      have hfalse : hasForbiddenSubstring (natToBits n i) (List.replicate s true)
          = false := by
        simp only [hasForbiddenSubstring, List.length_replicate]
        rw [if_pos (by omega)]
      simp [hfalse]
    rw [List.filter_eq_self.mpr hall, List.length_map, List.length_range]

theorem c2_witness :
    isMember 2 3 [true, true] = true ∧ (generateVertices 2 3).length = 2 ^ 2 :=
  ⟨((c2_membership_spec 2 3 (by decide) (by decide)).1 [true, true]).mpr
    ⟨rfl, fun k hk => absurd ( List.IsInfix.length_le hk) (by simp)⟩,
   (c2_membership_spec 2 3 (by decide) (by decide)).2 (by decide)⟩
